import Mathlib

/-!
Verification of the `CacheService` of the `treehouseaustin/contentful`
repository.  The service caches CMS entries and maintains two derived
indexes: a route table (slug to `(contentTypeId, entryId)`) and a type
index (content-type id to the list of entry ids of that type).  There are
two backend implementations: an in-memory one built on `cache-manager`
(`src/lib/wrapper.js`, second segment) and a networked one built on redis
(`src/lib/wrapper.js`, third segment).  Both are embedded below as pure
state-transformer functions.

Modelling conventions:
* Field values keyed by language are collapsed to their value at the
  service's single configured language (`this.lang`); every operation of
  the service reads fields only at that language.
* The in-memory `cache-manager` store keys entries by id alongside the
  reserved `$routes` / `$types` keys; the model keeps the three key
  spaces as separate components (entry ids in the repository are CMS
  UUIDs and never collide with the reserved keys).
* JavaScript objects are modelled as insertion-ordered association lists
  with unique keys: property assignment replaces the value in place for
  an existing key and appends a fresh key at the end, `delete` removes
  the key.  Key order is observable (`_.findKey` scans in key order).
* Redis sets are modelled as duplicate-free lists in insertion order;
  the composite `slug:type:id` route-set members are modelled as string
  triples (components of real slugs / ids are colon-free, so the
  `join(':')` / `split(':')` round trip is the identity on them).
* JavaScript exceptions are modelled with `Option`: `none` means the
  operation threw; in every such case the throw happens before any
  mutation, so the cache state is unchanged.
-/

namespace Contentful

/-- A Contentful entry as the cache service sees it: `sys.id`,
`sys.contentType.sys.id`, and the `fields.slug` field collapsed to the
configured language.  The outer `Option` is presence of the `slug`
field object itself (`!!fields.slug`), the inner `Option` is presence
of a value at the configured language (`fields.slug[this.lang]`). -/
structure Entry where
  sysId : String
  ctype : String
  slug : Option (Option String)
deriving DecidableEq, Repr

/-- A route-table value: `(contentTypeId, entryId)`. -/
abbrev RouteVal := String × String

/-- The route table, a JS object mapping slug to `(type, id)`. -/
abbrev RouteTable := List (String × RouteVal)

/-- The type index, a JS object mapping content-type id to the array of
entry ids of that type. -/
abbrev TypeMap := List (String × List String)

/-! ### JS-object primitives (insertion-ordered association lists) -/

/-- Property read on a JS object: first (unique) matching key. -/
def getKey {β : Type} : List (String × β) → String → Option β
  | [], _ => none
  | p :: l, k => if p.1 = k then some p.2 else getKey l k

/-- Property assignment on a JS object: replace in place, else append. -/
def setKey {β : Type} : List (String × β) → String → β → List (String × β)
  | [], k, v => [(k, v)]
  | p :: l, k, v => if p.1 = k then (k, v) :: l else p :: setKey l k v

/-- `delete obj[k]` on a JS object. -/
def eraseKey {β : Type} : List (String × β) → String → List (String × β)
  | [], _ => []
  | p :: l, k => if p.1 = k then eraseKey l k else p :: eraseKey l k

/-- Object spread `{...a, ...b}`: keys of `b` assigned into `a` in order. -/
def jsMerge {β : Type} (a b : List (String × β)) : List (String × β) :=
  b.foldl (fun acc p => setKey acc p.1 p.2) a

/-! ### In-memory backend (`src/lib/wrapper.js`, `cache-manager` variant) -/

/-- The observable state of the in-memory `CacheService`: the entry
store plus the two derived structures kept under the reserved keys. -/
structure MemCache where
  entries : List (String × Entry)
  routes : RouteTable
  types : TypeMap
deriving DecidableEq, Repr

/-- The freshly constructed (empty) in-memory cache. -/
def memInit : MemCache := ⟨[], [], []⟩

/-- In-memory `update(entry)`: `this.cache.set(entry.sys.id, entry)` and
the (no-op by default) `onUpdate` hook.  It touches neither the route
table nor the type index. -/
def memUpdate (e : Entry) (s : MemCache) : MemCache :=
  { s with entries := setKey s.entries e.sysId e }

/-- In-memory `updateRoutes(routes, merge)`. -/
def memUpdateRoutes (s : MemCache) (routes : RouteTable) (merge : Bool) : MemCache :=
  if merge then { s with routes := jsMerge s.routes routes }
  else { s with routes := routes }

/-- The route batch built in `updateEntries`: entries whose `slug` field
object is truthy, reduced to `all[fields.slug[this.lang]] = [type, id]`.
A slug object with no value at the configured language yields the JS
key coercion of `undefined`. -/
def buildRoutes (es : List Entry) : RouteTable :=
  (es.filter (fun e => e.slug.isSome)).foldl
    (fun all e =>
      match e.slug with
      | some v => setKey all (v.getD "undefined") (e.ctype, e.sysId)
      | none => all)
    []

/-- One step of the type-index maintenance in `updateEntries`: push the
entry id under its content type unless already included. -/
def typesAdd (t : TypeMap) (e : Entry) : TypeMap :=
  let cur := (getKey t e.ctype).getD []
  if e.sysId ∈ cur then t else setKey t e.ctype (cur ++ [e.sysId])

/-- The per-entry body of the `entries.map((entry) => ...)` loop in the
in-memory `updateEntries`: extend the type index and store the entry
(via `this.update(entry)`). -/
def updStep (acc : MemCache) (e : Entry) : MemCache :=
  { acc with
    types := typesAdd acc.types e
    entries := setKey acc.entries e.sysId e }

/-- In-memory `updateEntries(entries)`: merge the batch's routes, then
for each entry extend the type index and store the entry. -/
def memUpdateEntries (es : List Entry) (s : MemCache) : MemCache :=
  es.foldl updStep (memUpdateRoutes s (buildRoutes es) true)

/-- In-memory `routes()` (`cache.get('$routes') || {}`). -/
def memRoutes (s : MemCache) : RouteTable := s.routes

/-- In-memory `entry(entryId)`: a raw store read; a miss resolves to
`undefined`, modelled as `none`. -/
def memEntry (s : MemCache) (entryId : String) : Option Entry :=
  getKey s.entries entryId

/-- In-memory `deleteRoute(entryId)`: `_.findKey` the first slug whose
value's second component is the entry id, then delete that key.  The
guard `if (!key) return` fires both when no key was found (`undefined`)
and when the found key is the falsy empty string — an empty-string
route key is left in place. -/
def memDeleteRoute (s : MemCache) (entryId : String) : MemCache :=
  match s.routes.find? (fun p => p.2.2 == entryId) with
  | none => s
  | some p => if p.1 = "" then s else { s with routes := eraseKey s.routes p.1 }

/-- In-memory `destroy(entryId)`.  The code reads the entry and
immediately dereferences `entry.sys.contentType.sys.id`; on a cache
miss the read yields `undefined` and the dereference throws a
`TypeError` before anything is mutated (`none` here).  Otherwise it
deletes the entry, deletes its (first) route, and, when the type index
holds the entry's content type, filters the entry's id out of that
type's member array. -/
def memDestroy (s : MemCache) (entryId : String) : Option MemCache :=
  match getKey s.entries entryId with
  | none => none
  | some e =>
    let s1 := { s with entries := eraseKey s.entries entryId }
    let s2 := memDeleteRoute s1 entryId
    some (match getKey s2.types e.ctype with
      | none => s2
      | some ids =>
        { s2 with types := setKey s2.types e.ctype (ids.filter (fun i => i ≠ e.sysId)) })

/-- `membersOf` for the in-memory type index (`existing[type] || []`). -/
def memTypeIds (s : MemCache) (t : String) : List String :=
  (getKey s.types t).getD []

/-- The duck-typed argument a JS filter callback receives: in the code
path it is an entry-id string, in the specified path a resolved entry
(or `undefined` for an unresolvable id). -/
inductive JsArg where
  | str (s : String)
  | ent (e : Entry)
  | undef
deriving DecidableEq, Repr

/-- In-memory `entriesOfType(types, filter)`: concatenate the id arrays
of the listed types in order, apply the optional lodash filter to the
collected values (entry-id strings at this point), then resolve each
surviving id through `entry`. -/
def memEntriesOfType (s : MemCache) (ts : List String)
    (filter : Option (JsArg → Bool)) : List (Option Entry) :=
  let ids := ts.foldl (fun acc t => acc ++ memTypeIds s t) []
  let ids := match filter with
    | some p => ids.filter (fun id => p (.str id))
    | none => ids
  ids.map (memEntry s)

/-- The claim's reading of `entriesOfType` (spec §4.4): ids are
resolved to entries first and the optional predicate is applied to the
resolved entries.  Stated only to compare against `memEntriesOfType`. -/
def memEntriesOfTypeSpec (s : MemCache) (ts : List String)
    (filter : Option (JsArg → Bool)) : List (Option Entry) :=
  let ids := ts.foldl (fun acc t => acc ++ memTypeIds s t) []
  let resolved := ids.map (memEntry s)
  match filter with
  | some p => resolved.filter (fun r => p (match r with | some e => .ent e | none => .undef))
  | none => resolved

/-! ### Networked backend (`src/lib/wrapper.js`, redis variant) -/

/-- A redis route-set member `slug:type:id`, as a triple. -/
abbrev RouteMember := String × String × String

/-- The observable state of the redis `CacheService`: serialized
entries under their ids, one member set per content type under
`$type.<typeId>`, and the composite route set under `$routes`. -/
structure RedisCache where
  kv : List (String × Entry)
  typeSets : List (String × List String)
  routeSet : List RouteMember
deriving DecidableEq, Repr

/-- An empty redis database. -/
def redisInit : RedisCache := ⟨[], [], []⟩

/-- `SADD`: append the member unless already present. -/
def sadd {α : Type} [DecidableEq α] (l : List α) (a : α) : List α :=
  if a ∈ l then l else l ++ [a]

/-- `SREM`: remove the member. -/
def srem {α : Type} [DecidableEq α] (l : List α) (a : α) : List α :=
  l.filter (fun x => x ≠ a)

/-- `SMEMBERS $type.<t>` (an absent key is the empty set). -/
def redisTypeIds (s : RedisCache) (t : String) : List String :=
  (getKey s.typeSets t).getD []

/-- The slug the redis code routes on:
`entry.fields.slug && entry.fields.slug[this.lang]`, a truthy value
being a present non-empty string. -/
def declaredSlug (e : Entry) : Option String :=
  match e.slug with
  | some (some sl) => if sl = "" then none else some sl
  | _ => none

/-- Redis `update(entry)`: one `MULTI` transaction that `SADD`s the id
into its type's set, `SADD`s the composite route member when the entry
declares a truthy slug, and stores the serialized entry under its id. -/
def redisUpdate (e : Entry) (s : RedisCache) : RedisCache :=
  let s1 := { s with typeSets := setKey s.typeSets e.ctype (sadd (redisTypeIds s e.ctype) e.sysId) }
  let s2 := match declaredSlug e with
    | some sl => { s1 with routeSet := sadd s1.routeSet (sl, e.ctype, e.sysId) }
    | none => s1
  { s2 with kv := setKey s2.kv e.sysId e }

/-- Redis `updateEntries(entries)`: `Promise.all(entries.map(update))`. -/
def redisUpdateEntries (es : List Entry) (s : RedisCache) : RedisCache :=
  es.foldl (fun acc e => redisUpdate e acc) s

/-- The value `entry(entryId)` resolves to on the redis backend:
`JSON.parse(await get(id)) || {}` — a stored entry, or the truthy empty
object `{}` on a miss (`JSON.parse(null)` is `null`). -/
inductive RedisEntryResult where
  | obj (e : Entry)
  | emptyObj
deriving DecidableEq, Repr

/-- Redis `entry(entryId)`. -/
def redisEntry (s : RedisCache) (entryId : String) : RedisEntryResult :=
  match getKey s.kv entryId with
  | some e => .obj e
  | none => .emptyObj

/-- JS truthiness of the redis `entry()` result: both a parsed entry
object and the defaulted `{}` are truthy. -/
def redisResultTruthy : RedisEntryResult → Bool
  | .obj _ => true
  | .emptyObj => true

/-- Whether the redis `entry()` result has a `sys` property — the only
signal by which the redis `destroy` can recognize an absent entry. -/
def hasSys : RedisEntryResult → Bool
  | .obj _ => true
  | .emptyObj => false

/-- Redis `destroy(entryId)`: resolve the entry; return early when the
result is falsy or lacks `sys` (`if (!entry || !entry.sys) return`);
otherwise `DEL` the entry, `SREM` its id from its type's set and, when
it declares a truthy slug, `SREM` the composite route member. -/
def redisDestroy (s : RedisCache) (entryId : String) : RedisCache :=
  match redisEntry s entryId with
  | .emptyObj => s
  | .obj e =>
    let s1 := { s with
      kv := eraseKey s.kv entryId
      typeSets := setKey s.typeSets e.ctype (srem (redisTypeIds s e.ctype) e.sysId) }
    match declaredSlug e with
    | some sl => { s1 with routeSet := srem s1.routeSet (sl, e.ctype, e.sysId) }
    | none => s1

/-- The reduce inside redis `routes()`: fold an enumeration of the
`$routes` set members into a slug-keyed object,
`result[slug] = [type, uuid]`.  When several members share a slug, the
member enumerated last wins. -/
def routesOf (l : List RouteMember) : RouteTable :=
  l.foldl (fun res r => setKey res r.1 (r.2.1, r.2.2)) []

/-- Redis `routes()`: `SMEMBERS $routes` reduced into a slug-keyed
object.  `SMEMBERS` enumerates the set in an unspecified order; the
model folds the stored list, and any theorem whose conclusion depends
on which of several same-slug members wins quantifies over every
enumeration order (`List.Perm`) rather than relying on this one. -/
def redisRoutes (s : RedisCache) : RouteTable :=
  routesOf s.routeSet

/-- Redis `entriesOfType(types)`: concatenate the `SMEMBERS` of each
listed type's set in order and resolve every id.  It accepts no filter
argument. -/
def redisEntriesOfType (s : RedisCache) (ts : List String) : List RedisEntryResult :=
  (ts.foldl (fun acc t => acc ++ redisTypeIds s t) []).map (redisEntry s)

/-- JS truthiness of the in-memory `entry()` result: a cache miss is
`undefined`, which is falsy. -/
def memResultTruthy (r : Option Entry) : Bool := r.isSome

/-- The fallback test of the outer `ContentfulCache.entry`
(`src/index.js`): `if (!entry) entry = await this.syncOne(entryId)` —
`true` when the cached result is falsy, i.e. when the fetch-from-API
fallback runs. -/
def entryFallsBackToSync (r : RedisEntryResult) : Bool :=
  !redisResultTruthy r

/-! ### Operation sequences for the type-index invariant -/

/-- A public mutating operation of the in-memory cache service that
maintains the type index (`update` alone does not and is treated
separately). -/
inductive MemOp where
  | updateEntries (es : List Entry)
  | destroy (id : String)

/-- Execute one in-memory operation; a `destroy` that throws mutates
nothing, so the state is kept. -/
def memExecOp (s : MemCache) : MemOp → MemCache
  | .updateEntries es => memUpdateEntries es s
  | .destroy id => (memDestroy s id).getD s

/-- Execute a sequence of in-memory operations from a fresh cache. -/
def memExec (ops : List MemOp) : MemCache :=
  ops.foldl memExecOp memInit

/-- A public mutating operation of the redis cache service. -/
inductive RedisOp where
  | update (e : Entry)
  | updateEntries (es : List Entry)
  | destroy (id : String)

/-- Execute one redis operation. -/
def redisExecOp (s : RedisCache) : RedisOp → RedisCache
  | .update e => redisUpdate e s
  | .updateEntries es => redisUpdateEntries es s
  | .destroy id => redisDestroy s id

/-- Execute a sequence of redis operations from an empty database. -/
def redisExec (ops : List RedisOp) : RedisCache :=
  ops.foldl redisExecOp redisInit

/-- Type discipline: the entry's content type is the one fixed for its
id by the assignment `τ` (no entry ever changes type). -/
def entryTyped (τ : String → String) (e : Entry) : Prop :=
  e.ctype = τ e.sysId

instance (τ : String → String) (e : Entry) : Decidable (entryTyped τ e) := by
  unfold entryTyped
  infer_instance

/-- All entries supplied by an in-memory operation obey `τ`. -/
def memOpTyped (τ : String → String) : MemOp → Prop
  | .updateEntries es => ∀ e ∈ es, entryTyped τ e
  | .destroy _ => True

instance (τ : String → String) (op : MemOp) : Decidable (memOpTyped τ op) := by
  cases op <;> (unfold memOpTyped; infer_instance)

/-- All entries supplied by a redis operation obey `τ`. -/
def redisOpTyped (τ : String → String) : RedisOp → Prop
  | .update e => entryTyped τ e
  | .updateEntries es => ∀ e ∈ es, entryTyped τ e
  | .destroy _ => True

instance (τ : String → String) (op : RedisOp) : Decidable (redisOpTyped τ op) := by
  cases op <;> (unfold redisOpTyped; infer_instance)

/-- The inductive invariant tying the in-memory type index to the entry
store: stored entries sit under their own id with their `τ`-type, every
indexed id is of that type and currently stored, and every stored id is
indexed under its type. -/
def memInv (τ : String → String) (s : MemCache) : Prop :=
  (∀ id e, getKey s.entries id = some e → e.sysId = id ∧ e.ctype = τ id) ∧
  (∀ t id, id ∈ memTypeIds s t → τ id = t ∧ (getKey s.entries id).isSome = true) ∧
  (∀ id, (getKey s.entries id).isSome = true → id ∈ memTypeIds s (τ id))

/-- The same invariant for the redis backend. -/
def redisInv (τ : String → String) (s : RedisCache) : Prop :=
  (∀ id e, getKey s.kv id = some e → e.sysId = id ∧ e.ctype = τ id) ∧
  (∀ t id, id ∈ redisTypeIds s t → τ id = t ∧ (getKey s.kv id).isSome = true) ∧
  (∀ id, (getKey s.kv id).isSome = true → id ∈ redisTypeIds s (τ id))

/-! ### Association-list lemmas -/

theorem getKey_setKey_self {β : Type} (l : List (String × β)) (k : String) (v : β) :
    getKey (setKey l k v) k = some v := by
  induction l with
  | nil => simp [setKey, getKey]
  | cons p l ih =>
    by_cases h : p.1 = k
    · simp [setKey, h, getKey]
    · simp [setKey, h, getKey, ih]

theorem getKey_setKey_ne {β : Type} (l : List (String × β)) (k k' : String) (v : β)
    (h : k' ≠ k) : getKey (setKey l k v) k' = getKey l k' := by
  induction l with
  | nil => simp [setKey, getKey, Ne.symm h]
  | cons p l ih =>
    by_cases hp : p.1 = k
    · simp [setKey, hp, getKey, Ne.symm h]
    · simp [setKey, hp, getKey, ih]

theorem setKey_of_getKey {β : Type} {l : List (String × β)} {k : String} {v : β}
    (h : getKey l k = some v) : setKey l k v = l := by
  induction l with
  | nil => simp [getKey] at h
  | cons p l ih =>
    by_cases hp : p.1 = k
    · simp [getKey, hp] at h
      cases p with
      | mk k0 v0 => simp_all [setKey]
    · simp [getKey, hp] at h
      simp [setKey, hp, ih h]

theorem setKey_setKey_self {β : Type} (l : List (String × β)) (k : String) (v v' : β) :
    setKey (setKey l k v') k v = setKey l k v := by
  induction l with
  | nil => simp [setKey]
  | cons p l ih =>
    by_cases hp : p.1 = k
    · simp [setKey, hp]
    · simp [setKey, hp, ih]

theorem getKey_eraseKey_self {β : Type} (l : List (String × β)) (k : String) :
    getKey (eraseKey l k) k = none := by
  induction l with
  | nil => simp [eraseKey, getKey]
  | cons p l ih =>
    by_cases hp : p.1 = k
    · simp [eraseKey, hp, ih]
    · simp [eraseKey, hp, getKey, ih]

theorem getKey_eraseKey_ne {β : Type} (l : List (String × β)) (k k' : String)
    (h : k' ≠ k) : getKey (eraseKey l k) k' = getKey l k' := by
  induction l with
  | nil => simp [eraseKey]
  | cons p l ih =>
    by_cases hp : p.1 = k
    · have hp' : p.1 ≠ k' := by rw [hp]; exact Ne.symm h
      have e1 : eraseKey (p :: l) k = eraseKey l k := by simp [eraseKey, hp]
      have e2 : getKey (p :: l) k' = getKey l k' := by simp [getKey, hp']
      rw [e1, e2, ih]
    · simp [eraseKey, hp, getKey, ih]

theorem getKey_jsMerge_not_mem {β : Type} (a : List (String × β)) {b : List (String × β)}
    {k : String} (h : ∀ p ∈ b, p.1 ≠ k) : getKey (jsMerge a b) k = getKey a k := by
  induction b generalizing a with
  | nil => rfl
  | cons q b ih =>
    have hq : q.1 ≠ k := h q (List.mem_cons_self q b)
    have hrest : ∀ p ∈ b, p.1 ≠ k := fun p hp => h p (List.mem_cons_of_mem q hp)
    show getKey (jsMerge (setKey a q.1 q.2) b) k = getKey a k
    rw [ih _ hrest, getKey_setKey_ne _ _ _ _ (Ne.symm hq)]

theorem getKey_jsMerge_mem {β : Type} (a : List (String × β)) {b : List (String × β)}
    {k : String} {v : β} (hnd : (b.map Prod.fst).Nodup) (h : (k, v) ∈ b) :
    getKey (jsMerge a b) k = some v := by
  induction b generalizing a with
  | nil => cases h
  | cons q b ih =>
    rw [List.map_cons, List.nodup_cons] at hnd
    rcases List.mem_cons.mp h with heq | hmem
    · subst heq
      have hnk : ∀ p ∈ b, p.1 ≠ k := by
        intro p hp hpk
        apply hnd.1
        have hm := List.mem_map_of_mem Prod.fst hp
        rwa [hpk] at hm
      show getKey (jsMerge (setKey a k v) b) k = some v
      rw [getKey_jsMerge_not_mem _ hnk, getKey_setKey_self]
    · show getKey (jsMerge (setKey a q.1 q.2) b) k = some v
      exact ih _ hnd.2 hmem

theorem jsMerge_eq_self {β : Type} {c b : List (String × β)}
    (h : ∀ p ∈ b, getKey c p.1 = some p.2) : jsMerge c b = c := by
  induction b with
  | nil => rfl
  | cons q b ih =>
    show jsMerge (setKey c q.1 q.2) b = c
    rw [setKey_of_getKey (h q (List.mem_cons_self q b))]
    exact ih fun p hp => h p (List.mem_cons_of_mem q hp)

theorem jsMerge_idem {β : Type} (a : List (String × β)) {b : List (String × β)}
    (hnd : (b.map Prod.fst).Nodup) : jsMerge (jsMerge a b) b = jsMerge a b :=
  jsMerge_eq_self fun p hp => by
    have : (p.1, p.2) ∈ b := by simpa using hp
    exact getKey_jsMerge_mem a hnd this

theorem mem_sadd_self {α : Type} [DecidableEq α] (l : List α) (a : α) : a ∈ sadd l a := by
  by_cases h : a ∈ l <;> simp [sadd, h]

theorem sadd_of_mem {α : Type} [DecidableEq α] {l : List α} {a : α} (h : a ∈ l) :
    sadd l a = l := by simp [sadd, h]

theorem sadd_sadd {α : Type} [DecidableEq α] (l : List α) (a : α) :
    sadd (sadd l a) a = sadd l a := sadd_of_mem (mem_sadd_self l a)

theorem routesFold_mem {l : List RouteMember} {acc : RouteTable} {k : String} {v : RouteVal}
    (h : getKey (l.foldl (fun res r => setKey res r.1 (r.2.1, r.2.2)) acc) k = some v) :
    (k, v.1, v.2) ∈ l ∨ getKey acc k = some v := by
  induction l generalizing acc with
  | nil => exact Or.inr h
  | cons r l ih =>
    rcases ih h with hl | hacc
    · exact Or.inl (List.mem_cons_of_mem r hl)
    · by_cases hk : k = r.1
      · subst hk
        rw [getKey_setKey_self] at hacc
        left
        cases hacc
        simp
      · rw [getKey_setKey_ne _ _ _ _ hk] at hacc
        exact Or.inr hacc

theorem routesFold_last (l : List RouteMember) (acc : RouteTable) (r : RouteMember) :
    getKey ((l ++ [r]).foldl (fun res m => setKey res m.1 (m.2.1, m.2.2)) acc) r.1
      = some (r.2.1, r.2.2) := by
  rw [List.foldl_append]
  exact getKey_setKey_self _ _ _

theorem getKey_routesFold_no_slug {l : List RouteMember} {k : String}
    (h : ∀ r ∈ l, r.1 ≠ k) (acc : RouteTable) :
    getKey (l.foldl (fun res r => setKey res r.1 (r.2.1, r.2.2)) acc) k = getKey acc k := by
  induction l generalizing acc with
  | nil => rfl
  | cons r l ih =>
    show getKey (l.foldl (fun res r => setKey res r.1 (r.2.1, r.2.2))
      (setKey acc r.1 (r.2.1, r.2.2))) k = getKey acc k
    rw [ih (fun x hx => h x (List.mem_cons_of_mem _ hx)) _,
      getKey_setKey_ne _ _ _ _ (Ne.symm (h r (List.mem_cons_self r l)))]

theorem routesFold_unique {l : List RouteMember} {k : String} {m : RouteMember}
    (hm : m ∈ l) (hk : m.1 = k) (huniq : ∀ r ∈ l, r.1 = k → r = m) (acc : RouteTable) :
    getKey (l.foldl (fun res r => setKey res r.1 (r.2.1, r.2.2)) acc) k
      = some (m.2.1, m.2.2) := by
  induction l generalizing acc with
  | nil => cases hm
  | cons r l ih =>
    by_cases hml : m ∈ l
    · exact ih hml (fun x hx hxk => huniq x (List.mem_cons_of_mem _ hx) hxk) _
    · have hmr : m = r := by
        rcases List.mem_cons.mp hm with h | h
        · exact h
        · exact absurd h hml
      subst hmr
      have hno : ∀ x ∈ l, x.1 ≠ k := by
        intro x hx hxk
        exact hml ((huniq x (List.mem_cons_of_mem _ hx) hxk) ▸ hx)
      show getKey (l.foldl (fun res r => setKey res r.1 (r.2.1, r.2.2))
        (setKey acc m.1 (m.2.1, m.2.2))) k = some (m.2.1, m.2.2)
      rw [getKey_routesFold_no_slug hno, hk, getKey_setKey_self]

theorem mem_eraseKey {β : Type} {l : List (String × β)} {k : String} {p : String × β} :
    p ∈ eraseKey l k ↔ p ∈ l ∧ p.1 ≠ k := by
  induction l with
  | nil => simp [eraseKey]
  | cons q l ih =>
    by_cases hq : q.1 = k
    · simp only [eraseKey, if_pos hq, List.mem_cons, ih]
      constructor
      · rintro ⟨hm, hne⟩
        exact ⟨Or.inr hm, hne⟩
      · rintro ⟨hm | hm, hne⟩
        · exact absurd (hm ▸ hq) hne
        · exact ⟨hm, hne⟩
    · simp only [eraseKey, if_neg hq, List.mem_cons, ih]
      constructor
      · rintro (hm | ⟨hm, hne⟩)
        · exact ⟨Or.inl hm, hm ▸ hq⟩
        · exact ⟨Or.inr hm, hne⟩
      · rintro ⟨hm | hm, hne⟩
        · exact Or.inl hm
        · exact Or.inr ⟨hm, hne⟩

theorem mem_srem {α : Type} [DecidableEq α] {l : List α} {a x : α} :
    x ∈ srem l a ↔ x ∈ l ∧ x ≠ a := by
  simp [srem]

theorem not_mem_srem_self {α : Type} [DecidableEq α] (l : List α) (a : α) :
    a ∉ srem l a := fun h => (mem_srem.mp h).2 rfl

/-! ### Idempotence helpers -/

theorem typesAdd_typesAdd (t : TypeMap) (e : Entry) :
    typesAdd (typesAdd t e) e = typesAdd t e := by
  by_cases h : e.sysId ∈ (getKey t e.ctype).getD []
  · simp [typesAdd, h]
  · have h2 : getKey (setKey t e.ctype (((getKey t e.ctype).getD []) ++ [e.sysId])) e.ctype
        = some (((getKey t e.ctype).getD []) ++ [e.sysId]) := getKey_setKey_self _ _ _
    simp [typesAdd, h, h2]

theorem buildRoutes_single_nodup (e : Entry) : ((buildRoutes [e]).map Prod.fst).Nodup := by
  cases h : e.slug <;> simp [buildRoutes, h, setKey]

theorem memUE_single_idem (e : Entry) (s : MemCache) :
    memUpdateEntries [e] (memUpdateEntries [e] s) = memUpdateEntries [e] s := by
  have hN := buildRoutes_single_nodup e
  simp only [memUpdateEntries, List.foldl_cons, List.foldl_nil]
  simp [memUpdateRoutes, updStep, setKey_setKey_self, typesAdd_typesAdd, jsMerge_idem, hN]

theorem redisUpdate_idem (e : Entry) (s : RedisCache) :
    redisUpdate e (redisUpdate e s) = redisUpdate e s := by
  cases hsl : declaredSlug e with
  | none =>
    simp [redisUpdate, hsl, redisTypeIds, getKey_setKey_self, sadd_sadd, setKey_setKey_self]
  | some sl =>
    simp [redisUpdate, hsl, redisTypeIds, getKey_setKey_self, sadd_sadd, setKey_setKey_self]

theorem count_le_count_map {α β : Type} [BEq α] [LawfulBEq α] [BEq β] [LawfulBEq β]
    (l : List α) (f : α → β) (a : α) :
    l.count a ≤ (l.map f).count (f a) := by
  induction l with
  | nil => simp
  | cons x l ih =>
    simp only [List.map_cons, List.count_cons]
    by_cases h : x = a
    · subst h
      simp
      omega
    · have hx : (x == a) = false := beq_eq_false_iff_ne.mpr h
      simp [hx]
      exact le_trans ih (Nat.le_add_right _ _)

/-! ### Destroy helpers -/

theorem memDeleteRoute_entries (s : MemCache) (id : String) :
    (memDeleteRoute s id).entries = s.entries := by
  unfold memDeleteRoute
  cases s.routes.find? (fun p => p.2.2 == id) with
  | none => rfl
  | some p =>
    by_cases hp : p.1 = ""
    · simp [hp]
    · simp [hp]

theorem memDeleteRoute_types (s : MemCache) (id : String) :
    (memDeleteRoute s id).types = s.types := by
  unfold memDeleteRoute
  cases s.routes.find? (fun p => p.2.2 == id) with
  | none => rfl
  | some p =>
    by_cases hp : p.1 = ""
    · simp [hp]
    · simp [hp]

theorem memDeleteRoute_no_id {s : MemCache} {id rk : String} (hrk : rk ≠ "")
    (h : ∀ p ∈ s.routes, p.2.2 = id → p.1 = rk) :
    ∀ p ∈ (memDeleteRoute s id).routes, p.2.2 ≠ id := by
  intro p hp
  cases hf : s.routes.find? (fun q => q.2.2 == id) with
  | none =>
    simp only [memDeleteRoute, hf] at hp
    have hnone := List.find?_eq_none.mp hf p hp
    simpa using hnone
  | some p0 =>
    have hp0 : p0 ∈ s.routes := List.mem_of_find?_eq_some hf
    have hp0e : p0.2.2 = id := by simpa using List.find?_some hf
    have hk0 : p0.1 = rk := h p0 hp0 hp0e
    have hne : ¬ p0.1 = "" := by
      rw [hk0]
      exact hrk
    simp only [memDeleteRoute, hf, if_neg hne] at hp
    intro hpe
    have hmem := mem_eraseKey.mp hp
    apply hmem.2
    rw [h p hmem.1 hpe, hk0]

theorem memDestroy_some_spec {sm : MemCache} {id : String} {e : Entry}
    (hm : getKey sm.entries id = some e) :
    (memDestroy sm id).isSome = true ∧
    ((memDestroy sm id).getD sm).entries = eraseKey sm.entries id ∧
    ((memDestroy sm id).getD sm).routes
      = (memDeleteRoute { sm with entries := eraseKey sm.entries id } id).routes ∧
    e.sysId ∉ (getKey ((memDestroy sm id).getD sm).types e.ctype).getD [] := by
  cases h2 : getKey (memDeleteRoute { sm with entries := eraseKey sm.entries id } id).types e.ctype with
  | none =>
    have hD : (memDestroy sm id).getD sm
        = memDeleteRoute { sm with entries := eraseKey sm.entries id } id := by
      simp only [memDestroy, hm, h2, Option.getD_some]
    refine ⟨by simp [memDestroy, hm], ?_, ?_, ?_⟩
    · rw [hD, memDeleteRoute_entries]
    · rw [hD]
    · rw [hD]
      simp [h2]
  | some ids =>
    have hD : (memDestroy sm id).getD sm
        = { memDeleteRoute { sm with entries := eraseKey sm.entries id } id with
            types := setKey (memDeleteRoute { sm with entries := eraseKey sm.entries id } id).types
              e.ctype (ids.filter (fun i => i ≠ e.sysId)) } := by
      simp only [memDestroy, hm, h2, Option.getD_some]
    refine ⟨by simp [memDestroy, hm], ?_, ?_, ?_⟩
    · rw [hD]
      exact memDeleteRoute_entries _ _
    · rw [hD]
    · rw [hD]
      show e.sysId ∉ (getKey (setKey _ e.ctype (ids.filter (fun i => i ≠ e.sysId))) e.ctype).getD []
      rw [getKey_setKey_self]
      simp

/-! ### Type-index invariant: in-memory backend -/

theorem getKey_isSome_setKey {β : Type} (l : List (String × β)) (k : String) (v : β)
    (k' : String) (h : (getKey l k').isSome = true) :
    (getKey (setKey l k v) k').isSome = true := by
  by_cases hk : k' = k
  · subst hk
    rw [getKey_setKey_self]
    rfl
  · rw [getKey_setKey_ne _ _ _ _ hk]
    exact h

theorem memTypeIds_updStep_of_mem {s : MemCache} {e : Entry}
    (hin : e.sysId ∈ memTypeIds s e.ctype) (t : String) :
    memTypeIds (updStep s e) t = memTypeIds s t := by
  have hin' : e.sysId ∈ (getKey s.types e.ctype).getD [] := hin
  show (getKey (typesAdd s.types e) t).getD [] = _
  simp only [typesAdd]
  rw [if_pos hin']
  rfl

theorem memTypeIds_updStep_self {s : MemCache} {e : Entry}
    (hin : e.sysId ∉ memTypeIds s e.ctype) :
    memTypeIds (updStep s e) e.ctype = memTypeIds s e.ctype ++ [e.sysId] := by
  have hin' : e.sysId ∉ (getKey s.types e.ctype).getD [] := hin
  show (getKey (typesAdd s.types e) e.ctype).getD [] = _
  simp only [typesAdd]
  rw [if_neg hin', getKey_setKey_self]
  rfl

theorem memTypeIds_updStep_other {s : MemCache} {e : Entry} {t : String}
    (hin : e.sysId ∉ memTypeIds s e.ctype) (ht : t ≠ e.ctype) :
    memTypeIds (updStep s e) t = memTypeIds s t := by
  have hin' : e.sysId ∉ (getKey s.types e.ctype).getD [] := hin
  show (getKey (typesAdd s.types e) t).getD [] = _
  simp only [typesAdd]
  rw [if_neg hin', getKey_setKey_ne _ _ _ _ ht]
  rfl

theorem memTypeIds_updStep_mono {s : MemCache} {e : Entry} {t id : String}
    (h : id ∈ memTypeIds s t) : id ∈ memTypeIds (updStep s e) t := by
  by_cases hin : e.sysId ∈ memTypeIds s e.ctype
  · rw [memTypeIds_updStep_of_mem hin]
    exact h
  · by_cases ht : t = e.ctype
    · subst ht
      rw [memTypeIds_updStep_self hin]
      exact List.mem_append_left _ h
    · rw [memTypeIds_updStep_other hin ht]
      exact h

theorem memTypeIds_updStep_cases {s : MemCache} {e : Entry} {t id : String}
    (h : id ∈ memTypeIds (updStep s e) t) :
    id ∈ memTypeIds s t ∨ (id = e.sysId ∧ t = e.ctype) := by
  by_cases hin : e.sysId ∈ memTypeIds s e.ctype
  · rw [memTypeIds_updStep_of_mem hin] at h
    exact Or.inl h
  · by_cases ht : t = e.ctype
    · subst ht
      rw [memTypeIds_updStep_self hin] at h
      rcases List.mem_append.mp h with h | h
      · exact Or.inl h
      · exact Or.inr ⟨by simpa using h, rfl⟩
    · rw [memTypeIds_updStep_other hin ht] at h
      exact Or.inl h

theorem memInv_init (τ : String → String) : memInv τ memInit := by
  refine ⟨?_, ?_, ?_⟩
  · intro id e h
    simp [memInit, getKey] at h
  · intro t id h
    simp [memInit, memTypeIds, getKey] at h
  · intro id h
    simp [memInit, getKey] at h

theorem memInv_updStep {τ : String → String} {s : MemCache} {e : Entry}
    (hs : memInv τ s) (he : entryTyped τ e) : memInv τ (updStep s e) := by
  obtain ⟨h1, h2, h3⟩ := hs
  have het : e.ctype = τ e.sysId := he
  refine ⟨?_, ?_, ?_⟩
  · intro id e0 hget
    by_cases hid : id = e.sysId
    · subst hid
      rw [show (updStep s e).entries = setKey s.entries e.sysId e from rfl,
        getKey_setKey_self] at hget
      cases Option.some.inj hget
      exact ⟨rfl, het⟩
    · rw [show (updStep s e).entries = setKey s.entries e.sysId e from rfl,
        getKey_setKey_ne _ _ _ _ hid] at hget
      exact h1 id e0 hget
  · intro t id hmem
    rcases memTypeIds_updStep_cases hmem with hold | ⟨hid, ht⟩
    · obtain ⟨ha, hb⟩ := h2 t id hold
      refine ⟨ha, ?_⟩
      rw [show (updStep s e).entries = setKey s.entries e.sysId e from rfl]
      exact getKey_isSome_setKey _ _ _ _ hb
    · subst hid
      subst ht
      refine ⟨het.symm, ?_⟩
      rw [show (updStep s e).entries = setKey s.entries e.sysId e from rfl,
        getKey_setKey_self]
      rfl
  · intro id hsome
    by_cases hid : id = e.sysId
    · subst hid
      rw [← het]
      by_cases hin : e.sysId ∈ memTypeIds s e.ctype
      · rw [memTypeIds_updStep_of_mem hin]
        exact hin
      · rw [memTypeIds_updStep_self hin]
        exact List.mem_append_right _ (by simp)
    · have hold : (getKey s.entries id).isSome = true := by
        rw [show (updStep s e).entries = setKey s.entries e.sysId e from rfl,
          getKey_setKey_ne _ _ _ _ hid] at hsome
        exact hsome
      exact memTypeIds_updStep_mono (h3 id hold)

theorem memInv_foldl {τ : String → String} (es : List Entry) :
    ∀ s : MemCache, memInv τ s → (∀ e ∈ es, entryTyped τ e) →
      memInv τ (es.foldl updStep s) := by
  induction es with
  | nil =>
    intro s hs _
    exact hs
  | cons e es ih =>
    intro s hs hok
    exact ih _ (memInv_updStep hs (hok e (List.mem_cons_self e es)))
      (fun x hx => hok x (List.mem_cons_of_mem e hx))

theorem memInv_updateEntries {τ : String → String} {s : MemCache} (es : List Entry)
    (hs : memInv τ s) (hok : ∀ e ∈ es, entryTyped τ e) :
    memInv τ (memUpdateEntries es s) :=
  memInv_foldl es _ hs hok

theorem memDestroy_types_none {sm : MemCache} {id : String} {e : Entry}
    (hm : getKey sm.entries id = some e) (h2 : getKey sm.types e.ctype = none) :
    ((memDestroy sm id).getD sm).types = sm.types := by
  have h2' : getKey (memDeleteRoute { sm with entries := eraseKey sm.entries id } id).types e.ctype
      = none := by
    rw [memDeleteRoute_types]
    exact h2
  simp only [memDestroy, hm, h2', Option.getD_some]
  rw [memDeleteRoute_types]

theorem memDestroy_types_some {sm : MemCache} {id : String} {e : Entry} {ids : List String}
    (hm : getKey sm.entries id = some e) (h2 : getKey sm.types e.ctype = some ids) :
    ((memDestroy sm id).getD sm).types
      = setKey sm.types e.ctype (ids.filter (fun i => i ≠ e.sysId)) := by
  have h2' : getKey (memDeleteRoute { sm with entries := eraseKey sm.entries id } id).types e.ctype
      = some ids := by
    rw [memDeleteRoute_types]
    exact h2
  simp only [memDestroy, hm, h2', Option.getD_some]
  rw [memDeleteRoute_types]

theorem memInv_destroy {τ : String → String} {s : MemCache}
    (hs : memInv τ s) (id : String) : memInv τ ((memDestroy s id).getD s) := by
  cases hm : getKey s.entries id with
  | none =>
    have hno : memDestroy s id = none := by simp [memDestroy, hm]
    rw [hno]
    exact hs
  | some e =>
    obtain ⟨h1, h2, h3⟩ := hs
    obtain ⟨hid, hct⟩ := h1 id e hm
    obtain ⟨hS, hE, hR, hT⟩ := memDestroy_some_spec hm
    refine ⟨?_, ?_, ?_⟩
    · intro id0 e0 hg
      rw [hE] at hg
      by_cases h0 : id0 = id
      · subst h0
        rw [getKey_eraseKey_self] at hg
        cases hg
      · rw [getKey_eraseKey_ne _ _ _ h0] at hg
        exact h1 id0 e0 hg
    · intro t id0 hmem
      cases h2t : getKey s.types e.ctype with
      | none =>
        have hDt := memDestroy_types_none hm h2t
        have hmem' : id0 ∈ memTypeIds s t := by
          have heq : memTypeIds ((memDestroy s id).getD s) t = memTypeIds s t := by
            show (getKey ((memDestroy s id).getD s).types t).getD [] = _
            rw [hDt]
            rfl
          rwa [heq] at hmem
        obtain ⟨ha, hb⟩ := h2 t id0 hmem'
        have hne : id0 ≠ id := by
          intro hc
          subst hc
          have ht : t = e.ctype := by
            rw [← ha]
            exact hct.symm
          rw [ht] at hmem'
          have hnil : memTypeIds s e.ctype = [] := by
            show (getKey s.types e.ctype).getD [] = []
            rw [h2t]
            rfl
          rw [hnil] at hmem'
          exact absurd hmem' (List.not_mem_nil id0)
        refine ⟨ha, ?_⟩
        rw [hE, getKey_eraseKey_ne _ _ _ hne]
        exact hb
      | some ids =>
        have hDt := memDestroy_types_some hm h2t
        by_cases ht : t = e.ctype
        · subst ht
          have hmemD : memTypeIds ((memDestroy s id).getD s) e.ctype
              = ids.filter (fun i => i ≠ e.sysId) := by
            show (getKey ((memDestroy s id).getD s).types e.ctype).getD [] = _
            rw [hDt, getKey_setKey_self]
            rfl
          rw [hmemD] at hmem
          have hx := List.mem_filter.mp hmem
          have hne0 : id0 ≠ e.sysId := by simpa using hx.2
          have hne : id0 ≠ id := by
            rw [← hid]
            exact hne0
          have hmem' : id0 ∈ memTypeIds s e.ctype := by
            show id0 ∈ (getKey s.types e.ctype).getD []
            rw [h2t]
            exact hx.1
          obtain ⟨ha, hb⟩ := h2 e.ctype id0 hmem'
          refine ⟨ha, ?_⟩
          rw [hE, getKey_eraseKey_ne _ _ _ hne]
          exact hb
        · have hmemD : memTypeIds ((memDestroy s id).getD s) t = memTypeIds s t := by
            show (getKey ((memDestroy s id).getD s).types t).getD [] = _
            rw [hDt, getKey_setKey_ne _ _ _ _ ht]
            rfl
          rw [hmemD] at hmem
          obtain ⟨ha, hb⟩ := h2 t id0 hmem
          have hne : id0 ≠ id := by
            intro hc
            subst hc
            apply ht
            rw [← ha]
            exact hct.symm
          refine ⟨ha, ?_⟩
          rw [hE, getKey_eraseKey_ne _ _ _ hne]
          exact hb
    · intro id0 hsome
      rw [hE] at hsome
      by_cases h0 : id0 = id
      · subst h0
        rw [getKey_eraseKey_self] at hsome
        simp at hsome
      · rw [getKey_eraseKey_ne _ _ _ h0] at hsome
        have hmem := h3 id0 hsome
        cases h2t : getKey s.types e.ctype with
        | none =>
          have hDt := memDestroy_types_none hm h2t
          show id0 ∈ (getKey ((memDestroy s id).getD s).types (τ id0)).getD []
          rw [hDt]
          exact hmem
        | some ids =>
          have hDt := memDestroy_types_some hm h2t
          by_cases htau : τ id0 = e.ctype
          · show id0 ∈ (getKey ((memDestroy s id).getD s).types (τ id0)).getD []
            rw [hDt, htau, getKey_setKey_self]
            show id0 ∈ ids.filter (fun i => i ≠ e.sysId)
            apply List.mem_filter.mpr
            refine ⟨?_, ?_⟩
            · have hids : memTypeIds s (τ id0) = ids := by
                show (getKey s.types (τ id0)).getD [] = ids
                rw [htau, h2t]
                rfl
              rw [hids] at hmem
              exact hmem
            · simp only [ne_eq, decide_not, Bool.not_eq_eq_eq_not, Bool.not_true,
                decide_eq_false_iff_not]
              rw [hid]
              exact h0
          · show id0 ∈ (getKey ((memDestroy s id).getD s).types (τ id0)).getD []
            rw [hDt, getKey_setKey_ne _ _ _ _ htau]
            exact hmem

theorem memInv_fold_ops {τ : String → String} (ops : List MemOp) :
    ∀ s : MemCache, memInv τ s → (∀ op ∈ ops, memOpTyped τ op) →
      memInv τ (ops.foldl memExecOp s) := by
  induction ops with
  | nil =>
    intro s hs _
    exact hs
  | cons op ops ih =>
    intro s hs hok
    have htail : ∀ x ∈ ops, memOpTyped τ x := fun x hx => hok x (List.mem_cons_of_mem _ hx)
    cases op with
    | updateEntries es =>
      exact ih _ (memInv_updateEntries es hs (hok _ (List.mem_cons_self _ _))) htail
    | destroy id0 =>
      exact ih _ (memInv_destroy hs id0) htail

theorem memInv_iff {τ : String → String} {s : MemCache} (h : memInv τ s) (id t : String) :
    id ∈ memTypeIds s t ↔ (getKey s.entries id).map Entry.ctype = some t := by
  obtain ⟨h1, h2, h3⟩ := h
  constructor
  · intro hm
    obtain ⟨ht, hsome⟩ := h2 t id hm
    cases hg : getKey s.entries id with
    | none =>
      rw [hg] at hsome
      simp at hsome
    | some e =>
      have he := (h1 id e hg).2
      simp [he, ht]
  · intro hg
    cases hge : getKey s.entries id with
    | none =>
      rw [hge] at hg
      simp at hg
    | some e =>
      rw [hge] at hg
      simp only [Option.map_some'] at hg
      have het := Option.some.inj hg
      have h1e := h1 id e hge
      have hmem := h3 id (by rw [hge]; rfl)
      rw [← het, h1e.2]
      exact hmem

/-! ### Type-index invariant: redis backend -/

theorem mem_sadd {α : Type} [DecidableEq α] {l : List α} {a x : α} :
    x ∈ sadd l a ↔ x ∈ l ∨ x = a := by
  unfold sadd
  by_cases h : a ∈ l
  · rw [if_pos h]
    constructor
    · exact Or.inl
    · rintro (hx | rfl)
      · exact hx
      · exact h
  · rw [if_neg h]
    simp

theorem redisUpdate_typeSets (e : Entry) (s : RedisCache) :
    (redisUpdate e s).typeSets
      = setKey s.typeSets e.ctype (sadd (redisTypeIds s e.ctype) e.sysId) := by
  cases hd : declaredSlug e <;> simp [redisUpdate, hd]

theorem redisUpdate_kv (e : Entry) (s : RedisCache) :
    (redisUpdate e s).kv = setKey s.kv e.sysId e := by
  cases hd : declaredSlug e <;> simp [redisUpdate, hd]

theorem redisTypeIds_update_self (e : Entry) (s : RedisCache) :
    redisTypeIds (redisUpdate e s) e.ctype = sadd (redisTypeIds s e.ctype) e.sysId := by
  show (getKey (redisUpdate e s).typeSets e.ctype).getD [] = _
  rw [redisUpdate_typeSets, getKey_setKey_self]
  rfl

theorem redisTypeIds_update_other (e : Entry) (s : RedisCache) {t : String}
    (ht : t ≠ e.ctype) : redisTypeIds (redisUpdate e s) t = redisTypeIds s t := by
  show (getKey (redisUpdate e s).typeSets t).getD [] = _
  rw [redisUpdate_typeSets, getKey_setKey_ne _ _ _ _ ht]
  rfl

theorem redisInv_init (τ : String → String) : redisInv τ redisInit := by
  refine ⟨?_, ?_, ?_⟩
  · intro id e h
    simp [redisInit, getKey] at h
  · intro t id h
    simp [redisInit, redisTypeIds, getKey] at h
  · intro id h
    simp [redisInit, getKey] at h

theorem redisInv_update {τ : String → String} {s : RedisCache} {e : Entry}
    (hs : redisInv τ s) (he : entryTyped τ e) : redisInv τ (redisUpdate e s) := by
  obtain ⟨h1, h2, h3⟩ := hs
  have het : e.ctype = τ e.sysId := he
  refine ⟨?_, ?_, ?_⟩
  · intro id e0 hget
    rw [redisUpdate_kv] at hget
    by_cases hid : id = e.sysId
    · subst hid
      rw [getKey_setKey_self] at hget
      cases Option.some.inj hget
      exact ⟨rfl, het⟩
    · rw [getKey_setKey_ne _ _ _ _ hid] at hget
      exact h1 id e0 hget
  · intro t id hmem
    by_cases ht : t = e.ctype
    · subst ht
      rw [redisTypeIds_update_self] at hmem
      rcases mem_sadd.mp hmem with hold | rfl
      · obtain ⟨ha, hb⟩ := h2 _ id hold
        refine ⟨ha, ?_⟩
        rw [redisUpdate_kv]
        exact getKey_isSome_setKey _ _ _ _ hb
      · refine ⟨het.symm, ?_⟩
        rw [redisUpdate_kv, getKey_setKey_self]
        rfl
    · rw [redisTypeIds_update_other _ _ ht] at hmem
      obtain ⟨ha, hb⟩ := h2 t id hmem
      refine ⟨ha, ?_⟩
      rw [redisUpdate_kv]
      exact getKey_isSome_setKey _ _ _ _ hb
  · intro id hsome
    rw [redisUpdate_kv] at hsome
    by_cases hid : id = e.sysId
    · subst hid
      rw [← het, redisTypeIds_update_self]
      exact mem_sadd.mpr (Or.inr rfl)
    · rw [getKey_setKey_ne _ _ _ _ hid] at hsome
      have hmem := h3 id hsome
      by_cases ht : τ id = e.ctype
      · rw [ht, redisTypeIds_update_self]
        rw [ht] at hmem
        exact mem_sadd.mpr (Or.inl hmem)
      · rw [redisTypeIds_update_other _ _ ht]
        exact hmem

theorem redisInv_updateMany {τ : String → String} (es : List Entry) :
    ∀ s : RedisCache, redisInv τ s → (∀ e ∈ es, entryTyped τ e) →
      redisInv τ (redisUpdateEntries es s) := by
  induction es with
  | nil =>
    intro s hs _
    exact hs
  | cons e es ih =>
    intro s hs hok
    exact ih _ (redisInv_update hs (hok e (List.mem_cons_self e es)))
      (fun x hx => hok x (List.mem_cons_of_mem e hx))

theorem redisDestroy_kv {s : RedisCache} {id : String} {e : Entry}
    (hm : getKey s.kv id = some e) : (redisDestroy s id).kv = eraseKey s.kv id := by
  have hre : redisEntry s id = RedisEntryResult.obj e := by simp [redisEntry, hm]
  simp only [redisDestroy, hre]
  cases hd : declaredSlug e <;> simp [hd]

theorem redisDestroy_typeSets {s : RedisCache} {id : String} {e : Entry}
    (hm : getKey s.kv id = some e) :
    (redisDestroy s id).typeSets
      = setKey s.typeSets e.ctype (srem (redisTypeIds s e.ctype) e.sysId) := by
  have hre : redisEntry s id = RedisEntryResult.obj e := by simp [redisEntry, hm]
  simp only [redisDestroy, hre]
  cases hd : declaredSlug e <;> simp [hd]

theorem redisDestroy_miss {s : RedisCache} {id : String}
    (hm : getKey s.kv id = none) : redisDestroy s id = s := by
  simp [redisDestroy, redisEntry, hm]

theorem redisInv_destroy {τ : String → String} {s : RedisCache}
    (hs : redisInv τ s) (id : String) : redisInv τ (redisDestroy s id) := by
  cases hm : getKey s.kv id with
  | none =>
    rw [redisDestroy_miss hm]
    exact hs
  | some e =>
    obtain ⟨h1, h2, h3⟩ := hs
    obtain ⟨hid, hct⟩ := h1 id e hm
    refine ⟨?_, ?_, ?_⟩
    · intro id0 e0 hg
      rw [redisDestroy_kv hm] at hg
      by_cases h0 : id0 = id
      · subst h0
        rw [getKey_eraseKey_self] at hg
        cases hg
      · rw [getKey_eraseKey_ne _ _ _ h0] at hg
        exact h1 id0 e0 hg
    · intro t id0 hmem
      by_cases ht : t = e.ctype
      · subst ht
        have hstep : redisTypeIds (redisDestroy s id) e.ctype
            = srem (redisTypeIds s e.ctype) e.sysId := by
          show (getKey (redisDestroy s id).typeSets e.ctype).getD [] = _
          rw [redisDestroy_typeSets hm, getKey_setKey_self]
          rfl
        rw [hstep] at hmem
        obtain ⟨hin, hne⟩ := mem_srem.mp hmem
        obtain ⟨ha, hb⟩ := h2 _ id0 hin
        have hne' : id0 ≠ id := by
          rw [← hid]
          exact hne
        refine ⟨ha, ?_⟩
        rw [redisDestroy_kv hm, getKey_eraseKey_ne _ _ _ hne']
        exact hb
      · have hstep : redisTypeIds (redisDestroy s id) t = redisTypeIds s t := by
          show (getKey (redisDestroy s id).typeSets t).getD [] = _
          rw [redisDestroy_typeSets hm, getKey_setKey_ne _ _ _ _ ht]
          rfl
        rw [hstep] at hmem
        obtain ⟨ha, hb⟩ := h2 t id0 hmem
        have hne' : id0 ≠ id := by
          intro hc
          subst hc
          apply ht
          rw [← ha]
          exact hct.symm
        refine ⟨ha, ?_⟩
        rw [redisDestroy_kv hm, getKey_eraseKey_ne _ _ _ hne']
        exact hb
    · intro id0 hsome
      rw [redisDestroy_kv hm] at hsome
      by_cases h0 : id0 = id
      · subst h0
        rw [getKey_eraseKey_self] at hsome
        simp at hsome
      · rw [getKey_eraseKey_ne _ _ _ h0] at hsome
        have hmem := h3 id0 hsome
        by_cases htau : τ id0 = e.ctype
        · have hstep : redisTypeIds (redisDestroy s id) (τ id0)
              = srem (redisTypeIds s e.ctype) e.sysId := by
            show (getKey (redisDestroy s id).typeSets (τ id0)).getD [] = _
            rw [htau, redisDestroy_typeSets hm, getKey_setKey_self]
            rfl
          rw [hstep]
          apply mem_srem.mpr
          refine ⟨?_, ?_⟩
          · rw [← htau]
            exact hmem
          · rw [hid]
            exact h0
        · have hstep : redisTypeIds (redisDestroy s id) (τ id0) = redisTypeIds s (τ id0) := by
            show (getKey (redisDestroy s id).typeSets (τ id0)).getD [] = _
            rw [redisDestroy_typeSets hm, getKey_setKey_ne _ _ _ _ htau]
            rfl
          rw [hstep]
          exact hmem

theorem redisInv_fold_ops {τ : String → String} (ops : List RedisOp) :
    ∀ s : RedisCache, redisInv τ s → (∀ op ∈ ops, redisOpTyped τ op) →
      redisInv τ (ops.foldl redisExecOp s) := by
  induction ops with
  | nil =>
    intro s hs _
    exact hs
  | cons op ops ih =>
    intro s hs hok
    have htail : ∀ x ∈ ops, redisOpTyped τ x := fun x hx => hok x (List.mem_cons_of_mem _ hx)
    cases op with
    | update e =>
      exact ih _ (redisInv_update hs (hok _ (List.mem_cons_self _ _))) htail
    | updateEntries es =>
      exact ih _ (redisInv_updateMany es _ hs (hok _ (List.mem_cons_self _ _))) htail
    | destroy id0 =>
      exact ih _ (redisInv_destroy hs id0) htail

theorem redisInv_iff {τ : String → String} {s : RedisCache} (h : redisInv τ s) (id t : String) :
    id ∈ redisTypeIds s t ↔ (getKey s.kv id).map Entry.ctype = some t := by
  obtain ⟨h1, h2, h3⟩ := h
  constructor
  · intro hm
    obtain ⟨ht, hsome⟩ := h2 t id hm
    cases hg : getKey s.kv id with
    | none =>
      rw [hg] at hsome
      simp at hsome
    | some e =>
      have he := (h1 id e hg).2
      simp [he, ht]
  · intro hg
    cases hge : getKey s.kv id with
    | none =>
      rw [hge] at hg
      simp at hg
    | some e =>
      rw [hge] at hg
      simp only [Option.map_some'] at hg
      have het := Option.some.inj hg
      have h1e := h1 id e hge
      have hmem := h3 id (by rw [hge]; rfl)
      rw [← het, h1e.2]
      exact hmem

/-! ### Claim theorems -/

/-- C6: the update path is idempotent for both backends — a second
application with identical content changes nothing, and in particular
the includes-guarded push (in-memory) and `SADD` (redis) insert no
duplicate type-index membership. -/
theorem C6_update_idempotent (e : Entry) (sm : MemCache) (sr : RedisCache) :
    memUpdateEntries [e] (memUpdateEntries [e] sm) = memUpdateEntries [e] sm ∧
    memUpdate e (memUpdate e sm) = memUpdate e sm ∧
    redisUpdate e (redisUpdate e sr) = redisUpdate e sr :=
  ⟨memUE_single_idem e sm, by simp [memUpdate, setKey_setKey_self], redisUpdate_idem e sr⟩

/-- C7: `updateRoutes` with `merge=false` replaces the route table
wholesale; with `merge=true` it overrides key-by-key — a slug present
in the new mapping gets the new value, and every existing route whose
slug is absent from the new mapping survives unchanged. -/
theorem C7_updateRoutes_merge_policy (s : MemCache) (n : RouteTable)
    (hn : (n.map Prod.fst).Nodup) :
    memRoutes (memUpdateRoutes s n false) = n ∧
    (∀ k v, (k, v) ∈ n → getKey (memRoutes (memUpdateRoutes s n true)) k = some v) ∧
    (∀ k, (∀ p ∈ n, p.1 ≠ k) →
      getKey (memRoutes (memUpdateRoutes s n true)) k = getKey (memRoutes s) k) := by
  refine ⟨rfl, ?_, ?_⟩
  · intro k v hkv
    simpa [memUpdateRoutes, memRoutes] using getKey_jsMerge_mem s.routes hn hkv
  · intro k hk
    simpa [memUpdateRoutes, memRoutes] using getKey_jsMerge_not_mem s.routes hk

/-- C7 witness: concrete route table and new mapping. -/
theorem C7_witness :
    (([("a", (("page" : String), ("9" : String))), ("c", ("press", "3"))].map Prod.fst).Nodup) ∧
    getKey (memRoutes (memUpdateRoutes
        (⟨[], [("a", ("page", "1")), ("b", ("page", "2"))], []⟩ : MemCache)
        [("a", ("page", "9")), ("c", ("press", "3"))] true)) "a" = some ("page", "9") ∧
    getKey (memRoutes (memUpdateRoutes
        (⟨[], [("a", ("page", "1")), ("b", ("page", "2"))], []⟩ : MemCache)
        [("a", ("page", "9")), ("c", ("press", "3"))] true)) "b" = some ("page", "2") := by
  have hn : (([("a", (("page" : String), ("9" : String))), ("c", ("press", "3"))].map
      Prod.fst).Nodup) := by decide
  refine ⟨hn, ?_, ?_⟩
  · exact (C7_updateRoutes_merge_policy _ _ hn).2.1 "a" ("page", "9") (by decide)
  · have := (C7_updateRoutes_merge_policy
        (⟨[], [("a", ("page", "1")), ("b", ("page", "2"))], []⟩ : MemCache)
        [("a", ("page", "9")), ("c", ("press", "3"))] hn).2.2 "b" (by decide)
    rw [this]
    decide

/-- C8: a point lookup of an id absent from the cache returns each
backend's defined absent result — `undefined` in-memory, the defaulted
empty object on redis — rather than raising. -/
theorem C8_entry_miss_no_throw (sm : MemCache) (sr : RedisCache) (i1 i2 : String)
    (h1 : getKey sm.entries i1 = none) (h2 : getKey sr.kv i2 = none) :
    memEntry sm i1 = none ∧ redisEntry sr i2 = RedisEntryResult.emptyObj := by
  constructor
  · exact h1
  · simp [redisEntry, h2]

/-- C8 witness: the literal missing-id scenario on both fresh backends. -/
theorem C8_witness :
    getKey memInit.entries "missing-id" = none ∧
    getKey redisInit.kv "missing-id" = none ∧
    (memEntry memInit "missing-id" = none ∧
      redisEntry redisInit "missing-id" = RedisEntryResult.emptyObj) :=
  ⟨rfl, rfl, C8_entry_miss_no_throw memInit redisInit "missing-id" "missing-id" rfl rfl⟩

/-- C10: the two backends disagree on the absent sentinel of `entry()` —
in-memory resolves to a falsy `undefined`, redis to the truthy `{}`; the
redis `destroy` therefore detects absence only through the missing `sys`
field, and the outer `ContentfulCache.entry` falsiness test never
triggers its fetch fallback on the redis backend. -/
theorem C10_sentinel_divergence (sm : MemCache) (sr : RedisCache) (im ir : String)
    (h1 : getKey sm.entries im = none) (h2 : getKey sr.kv ir = none) :
    memEntry sm im = none ∧ memResultTruthy (memEntry sm im) = false ∧
    redisEntry sr ir = RedisEntryResult.emptyObj ∧
    redisResultTruthy (redisEntry sr ir) = true ∧
    hasSys (redisEntry sr ir) = false ∧
    redisDestroy sr ir = sr ∧
    entryFallsBackToSync (redisEntry sr ir) = false := by
  have he : redisEntry sr ir = RedisEntryResult.emptyObj := by simp [redisEntry, h2]
  refine ⟨h1, ?_, he, ?_, ?_, ?_, ?_⟩
  · simp [memResultTruthy, memEntry, h1]
  · simp [he, redisResultTruthy]
  · simp [he, hasSys]
  · simp [redisDestroy, he]
  · simp [entryFallsBackToSync, he, redisResultTruthy]

/-- C10 witness: fresh backends and an uncached id. -/
theorem C10_witness :
    getKey memInit.entries "nope" = none ∧
    getKey redisInit.kv "nope" = none ∧
    (memEntry memInit "nope" = none ∧
      memResultTruthy (memEntry memInit "nope") = false ∧
      redisEntry redisInit "nope" = RedisEntryResult.emptyObj ∧
      redisResultTruthy (redisEntry redisInit "nope") = true ∧
      hasSys (redisEntry redisInit "nope") = false ∧
      redisDestroy redisInit "nope" = redisInit ∧
      entryFallsBackToSync (redisEntry redisInit "nope") = false) :=
  ⟨rfl, rfl, C10_sentinel_divergence memInit redisInit "nope" "nope" rfl rfl⟩

/-- C1 counterexample: on the in-memory backend, `update(e)` for an
entry that declares a slug writes only the entry store — the route
table and the type index stay empty, so `routes()` does not contain the
slug and the type index does not hold the entry's id. -/
theorem C1_counterexample :
    declaredSlug (⟨"A1", "page", some (some "home")⟩ : Entry) = some "home" ∧
    memRoutes (memUpdate (⟨"A1", "page", some (some "home")⟩ : Entry) memInit) = [] ∧
    memTypeIds (memUpdate (⟨"A1", "page", some (some "home")⟩ : Entry) memInit) "page" = [] := by
  decide

/-- C1 (amended): on the networked backend `update(e)` updates the
entry store, the route set (for a declared truthy slug) and the type
index together, and — when no cached composite route shares `e`'s slug
— `routes()` maps that slug to `(e.type, e.id)` under every enumeration
order of the `$routes` set; on the in-memory backend `update(e)` writes
only the entry store, leaving the route table and type index
untouched. -/
theorem C1_update_amended (e : Entry) (sr : RedisCache) (sm : MemCache) (sl : String)
    (hsl : declaredSlug e = some sl)
    (hslug : ∀ r ∈ sr.routeSet, r.1 ≠ sl) :
    getKey (redisUpdate e sr).kv e.sysId = some e ∧
    e.sysId ∈ redisTypeIds (redisUpdate e sr) e.ctype ∧
    (sl, e.ctype, e.sysId) ∈ (redisUpdate e sr).routeSet ∧
    getKey (redisRoutes (redisUpdate e sr)) sl = some (e.ctype, e.sysId) ∧
    (∀ l2 : List RouteMember, l2.Perm (redisUpdate e sr).routeSet →
      getKey (routesOf l2) sl = some (e.ctype, e.sysId)) ∧
    memEntry (memUpdate e sm) e.sysId = some e ∧
    (memUpdate e sm).routes = sm.routes ∧
    (memUpdate e sm).types = sm.types := by
  have hnotmem : (sl, e.ctype, e.sysId) ∉ sr.routeSet := fun hmem => hslug _ hmem rfl
  have hupd : redisUpdate e sr =
      { kv := setKey sr.kv e.sysId e
        typeSets := setKey sr.typeSets e.ctype (sadd (redisTypeIds sr e.ctype) e.sysId)
        routeSet := sr.routeSet ++ [(sl, e.ctype, e.sysId)] } := by
    simp [redisUpdate, hsl, sadd, hnotmem]
  have hmem : (sl, e.ctype, e.sysId) ∈ (redisUpdate e sr).routeSet := by
    rw [hupd]
    exact List.mem_append_right _ (List.mem_singleton.mpr rfl)
  have huniq : ∀ r ∈ (redisUpdate e sr).routeSet, r.1 = sl → r = (sl, e.ctype, e.sysId) := by
    rw [hupd]
    intro r hr hrk
    rcases List.mem_append.mp hr with h | h
    · exact absurd hrk (hslug r h)
    · rwa [List.mem_singleton] at h
  have hperm : ∀ l2 : List RouteMember, l2.Perm (redisUpdate e sr).routeSet →
      getKey (routesOf l2) sl = some (e.ctype, e.sysId) := by
    intro l2 hp
    exact routesFold_unique (hp.mem_iff.mpr hmem) rfl
      (fun r hr hrk => huniq r (hp.mem_iff.mp hr) hrk) []
  refine ⟨?_, ?_, hmem, ?_, hperm, ?_, rfl, rfl⟩
  · rw [hupd]
    exact getKey_setKey_self _ _ _
  · rw [hupd]
    show e.sysId ∈ (getKey (setKey sr.typeSets e.ctype _) e.ctype).getD []
    rw [getKey_setKey_self]
    exact mem_sadd_self _ _
  · exact hperm (redisUpdate e sr).routeSet (List.Perm.refl _)
  · exact getKey_setKey_self _ _ _

/-- C1 witness: the scenario entry `A1`/`page`/slug `home` on fresh
backends (the empty route set trivially has no member sharing the
slug). -/
theorem C1_witness :
    declaredSlug (⟨"A1", "page", some (some "home")⟩ : Entry) = some "home" ∧
    redisInit.routeSet = [] ∧
    (getKey (redisUpdate (⟨"A1", "page", some (some "home")⟩ : Entry) redisInit).kv "A1"
        = some (⟨"A1", "page", some (some "home")⟩ : Entry) ∧
      "A1" ∈ redisTypeIds (redisUpdate (⟨"A1", "page", some (some "home")⟩ : Entry) redisInit) "page" ∧
      getKey (redisRoutes (redisUpdate (⟨"A1", "page", some (some "home")⟩ : Entry) redisInit)) "home"
        = some ("page", "A1") ∧
      memEntry (memUpdate (⟨"A1", "page", some (some "home")⟩ : Entry) memInit) "A1"
        = some (⟨"A1", "page", some (some "home")⟩ : Entry) ∧
      (memUpdate (⟨"A1", "page", some (some "home")⟩ : Entry) memInit).routes = memInit.routes ∧
      (memUpdate (⟨"A1", "page", some (some "home")⟩ : Entry) memInit).types = memInit.types) := by
  have H := C1_update_amended (⟨"A1", "page", some (some "home")⟩ : Entry) redisInit memInit
    "home" (by decide) (by decide)
  exact ⟨by decide, rfl, H.1, H.2.1, H.2.2.2.1, H.2.2.2.2.2.1, H.2.2.2.2.2.2.1, H.2.2.2.2.2.2.2⟩

/-- C2 counterexample: the in-memory `destroy` of an id that is not in
the store dereferences `entry.sys` on `undefined` and throws instead of
completing as a no-op. -/
theorem C2_counterexample :
    getKey memInit.entries "missing-id" = none ∧
    memDestroy memInit "missing-id" = none := by
  decide

/-- C2 (amended): destroying an absent id is a silent no-op on the
networked backend (and a second destroy of the same id is therefore
harmless there), while the in-memory `destroy` of an absent id throws a
`TypeError` before mutating anything. -/
theorem C2_destroy_absent_amended (sm : MemCache) (sr : RedisCache) (im ir : String)
    (h1 : getKey sm.entries im = none) (h2 : getKey sr.kv ir = none) :
    memDestroy sm im = none ∧
    redisDestroy sr ir = sr ∧
    (∀ (sr2 : RedisCache) (i2 : String),
      redisDestroy (redisDestroy sr2 i2) i2 = redisDestroy sr2 i2) := by
  refine ⟨?_, ?_, ?_⟩
  · simp [memDestroy, h1]
  · simp [redisDestroy, redisEntry, h2]
  · intro sr2 i2
    cases hk : getKey sr2.kv i2 with
    | none => simp [redisDestroy, redisEntry, hk]
    | some e0 =>
      have h1' : redisEntry sr2 i2 = RedisEntryResult.obj e0 := by simp [redisEntry, hk]
      have hkv : (redisDestroy sr2 i2).kv = eraseKey sr2.kv i2 := by
        simp only [redisDestroy, h1']
        cases hd : declaredSlug e0 <;> simp [hd]
      have hmiss : getKey (redisDestroy sr2 i2).kv i2 = none := by
        rw [hkv]
        exact getKey_eraseKey_self _ _
      generalize hX : redisDestroy sr2 i2 = X at hmiss ⊢
      have hE : redisEntry X i2 = RedisEntryResult.emptyObj := by simp [redisEntry, hmiss]
      simp [redisDestroy, hE]

/-- C2 witness: empty backends and a never-stored id. -/
theorem C2_witness :
    getKey memInit.entries "gone" = none ∧
    getKey redisInit.kv "gone" = none ∧
    (memDestroy memInit "gone" = none ∧
      redisDestroy redisInit "gone" = redisInit ∧
      (∀ (sr2 : RedisCache) (i2 : String),
        redisDestroy (redisDestroy sr2 i2) i2 = redisDestroy sr2 i2)) :=
  ⟨rfl, rfl, C2_destroy_absent_amended memInit redisInit "gone" "gone" rfl rfl⟩

/-- C5 counterexample: on the in-memory backend, a batch update of two
entries builds the route table, while the two sequential `update` calls
leave it empty — the final route tables differ. -/
theorem C5_counterexample :
    memRoutes (memUpdateEntries
        [⟨"A1", "page", some (some "home")⟩, ⟨"B2", "press", none⟩] memInit) ≠
      memRoutes (memUpdate (⟨"B2", "press", none⟩ : Entry)
        (memUpdate (⟨"A1", "page", some (some "home")⟩ : Entry) memInit)) := by
  decide

/-- C5 (amended): batch equivalence holds on the networked backend,
where `updateEntries` is exactly the sequence of `update` calls; on the
in-memory backend the two sequential `update` calls agree with the
batch only on the entry store, and leave the route table and type index
at their initial values. -/
theorem C5_batch_amended (e1 e2 : Entry) (sr : RedisCache) (sm : MemCache) :
    redisUpdateEntries [e1, e2] sr = redisUpdate e2 (redisUpdate e1 sr) ∧
    (memUpdate e2 (memUpdate e1 sm)).routes = sm.routes ∧
    (memUpdate e2 (memUpdate e1 sm)).types = sm.types ∧
    (memUpdateEntries [e1, e2] sm).entries = (memUpdate e2 (memUpdate e1 sm)).entries :=
  ⟨rfl, rfl, rfl, rfl⟩

/-- C4 counterexample: store entry `A1` once under slug `a`, again under
slug `b`, then destroy it.  `deleteRoute` removes only the first route
found for the id, so `routes()` still maps a slug (`b`) to `A1` after
the destroy — a route to the destroyed entry survives. -/
theorem C4_counterexample :
    getKey (memUpdateEntries [⟨"A1", "page", some (some "b")⟩]
        (memUpdateEntries [⟨"A1", "page", some (some "a")⟩] memInit)).entries "A1"
      = some (⟨"A1", "page", some (some "b")⟩ : Entry) ∧
    (memDestroy (memUpdateEntries [⟨"A1", "page", some (some "b")⟩]
        (memUpdateEntries [⟨"A1", "page", some (some "a")⟩] memInit)) "A1").map
        (fun s => getKey (memRoutes s) "b")
      = some (some ("page", "A1")) := by
  decide

/-- C4 (amended): for a stored entry `e`, `destroy(e.sys.id)` removes
the entry from the store, removes its id from its content type's member
list, and removes the first route found for the id — so when every
cached route to `e` has one truthy (non-empty) slug key (in-memory)
resp. is the composite of `e`'s current slug and type (redis), no route
maps to `e`'s id afterwards.  A second route accumulated under a
previous slug is not covered and can survive, and an empty-string route
key is never deleted (`if (!key) return`). -/
theorem C4_destroy_amended (e : Entry) (sm : MemCache) (sr : RedisCache) (rk : String)
    (hrk : rk ≠ "")
    (hm : getKey sm.entries e.sysId = some e)
    (hmr : ∀ p ∈ sm.routes, p.2.2 = e.sysId → p.1 = rk)
    (hr : getKey sr.kv e.sysId = some e)
    (hrr : ∀ r ∈ sr.routeSet, r.2.2 = e.sysId → (some r.1 = declaredSlug e ∧ r.2.1 = e.ctype)) :
    (memDestroy sm e.sysId).isSome = true ∧
    memEntry ((memDestroy sm e.sysId).getD sm) e.sysId = none ∧
    e.sysId ∉ memTypeIds ((memDestroy sm e.sysId).getD sm) e.ctype ∧
    (∀ p ∈ memRoutes ((memDestroy sm e.sysId).getD sm), p.2.2 ≠ e.sysId) ∧
    redisEntry (redisDestroy sr e.sysId) e.sysId = RedisEntryResult.emptyObj ∧
    e.sysId ∉ redisTypeIds (redisDestroy sr e.sysId) e.ctype ∧
    (∀ r ∈ (redisDestroy sr e.sysId).routeSet, r.2.2 ≠ e.sysId) ∧
    (∀ k v, getKey (redisRoutes (redisDestroy sr e.sysId)) k = some v → v.2 ≠ e.sysId) := by
  obtain ⟨hS, hE, hR, hT⟩ := memDestroy_some_spec hm
  have hre : redisEntry sr e.sysId = RedisEntryResult.obj e := by simp [redisEntry, hr]
  have hkv : (redisDestroy sr e.sysId).kv = eraseKey sr.kv e.sysId := by
    simp only [redisDestroy, hre]
    cases hd : declaredSlug e <;> simp [hd]
  have hty : (redisDestroy sr e.sysId).typeSets
      = setKey sr.typeSets e.ctype (srem (redisTypeIds sr e.ctype) e.sysId) := by
    simp only [redisDestroy, hre]
    cases hd : declaredSlug e <;> simp [hd]
  have hrs : ∀ r ∈ (redisDestroy sr e.sysId).routeSet, r.2.2 ≠ e.sysId := by
    intro r hrm hre2
    cases hd : declaredSlug e with
    | some sl =>
      have hset : (redisDestroy sr e.sysId).routeSet = srem sr.routeSet (sl, e.ctype, e.sysId) := by
        simp only [redisDestroy, hre]
        simp [hd]
      rw [hset] at hrm
      have hx := mem_srem.mp hrm
      have h3 := hrr r hx.1 hre2
      apply hx.2
      rw [hd] at h3
      obtain ⟨a, b, c⟩ := r
      simp only at h3 hre2
      cases Option.some.inj h3.1
      cases h3.2
      cases hre2
      rfl
    | none =>
      have hset : (redisDestroy sr e.sysId).routeSet = sr.routeSet := by
        simp only [redisDestroy, hre]
        simp [hd]
      rw [hset] at hrm
      have h3 := hrr r hrm hre2
      rw [hd] at h3
      exact Option.noConfusion h3.1
  refine ⟨hS, ?_, hT, ?_, ?_, ?_, hrs, ?_⟩
  · show getKey ((memDestroy sm e.sysId).getD sm).entries e.sysId = none
    rw [hE]
    exact getKey_eraseKey_self _ _
  · intro p hp
    have hp2 : p ∈ (memDeleteRoute { sm with entries := eraseKey sm.entries e.sysId } e.sysId).routes := by
      rw [← hR]
      exact hp
    exact memDeleteRoute_no_id (s := { sm with entries := eraseKey sm.entries e.sysId }) hrk hmr p hp2
  · have hmiss : getKey (redisDestroy sr e.sysId).kv e.sysId = none := by
      rw [hkv]
      exact getKey_eraseKey_self _ _
    simp [redisEntry, hmiss]
  · show e.sysId ∉ (getKey (redisDestroy sr e.sysId).typeSets e.ctype).getD []
    rw [hty, getKey_setKey_self]
    exact not_mem_srem_self _ _
  · intro k v hkv2
    have hfold : getKey ((redisDestroy sr e.sysId).routeSet.foldl
        (fun res r => setKey res r.1 (r.2.1, r.2.2)) []) k = some v := hkv2
    rcases routesFold_mem hfold with hmem | hacc
    · intro hveq
      exact hrs (k, v.1, v.2) hmem (by simpa using hveq)
    · simp [getKey] at hacc

/-- C9 counterexample: the in-memory `entriesOfType` passes the
entry-id strings, not the resolved entries, to the lodash filter — a
predicate that accepts exactly entry objects keeps everything under the
specified resolve-then-filter order but keeps nothing under the code's
filter-then-resolve order. -/
theorem C9_counterexample :
    memEntriesOfType (⟨[("p1", ⟨"p1", "press", none⟩)], [], [("press", ["p1"])]⟩ : MemCache)
        ["press"] (some (fun a => match a with | JsArg.ent _ => true | _ => false)) = [] ∧
    memEntriesOfTypeSpec (⟨[("p1", ⟨"p1", "press", none⟩)], [], [("press", ["p1"])]⟩ : MemCache)
        ["press"] (some (fun a => match a with | JsArg.ent _ => true | _ => false))
      = [some ⟨"p1", "press", none⟩] := by
  constructor <;> rfl

/-- C9 (amended): `entriesOfType` concatenates the listed types' id
sets in order and resolves ids to entries without deduplication (an id
indexed under two listed types yields two result elements); the
in-memory variant applies the optional filter to the entry ids before
resolution, agreeing with the specified resolve-then-filter order
exactly when the predicate is insensitive to the difference; the
networked variant accepts no filter. -/
theorem C9_entriesOfType_amended (s : MemCache) (ts : List String) (p : JsArg → Bool)
    (t1 t2 id : String) (sr : RedisCache)
    (h1 : id ∈ memTypeIds s t1) (h2 : id ∈ memTypeIds s t2)
    (hagree : ∀ i : String, p (JsArg.str i)
      = p (match memEntry s i with | some e => JsArg.ent e | none => JsArg.undef)) :
    2 ≤ (memEntriesOfType s [t1, t2] none).count (memEntry s id) ∧
    memEntriesOfType s ts (some p) = memEntriesOfTypeSpec s ts (some p) ∧
    memEntriesOfType s ts none = memEntriesOfTypeSpec s ts none ∧
    redisEntriesOfType sr ts
      = (ts.foldl (fun acc t => acc ++ redisTypeIds sr t) []).map (redisEntry sr) := by
  refine ⟨?_, ?_, rfl, rfl⟩
  · show 2 ≤ ((([] ++ memTypeIds s t1) ++ memTypeIds s t2).map (memEntry s)).count (memEntry s id)
    have hc : 2 ≤ (([] ++ memTypeIds s t1) ++ memTypeIds s t2).count id := by
      rw [List.count_append, List.count_append]
      have c1 : 0 < (memTypeIds s t1).count id := List.count_pos_iff.mpr h1
      have c2 : 0 < (memTypeIds s t2).count id := List.count_pos_iff.mpr h2
      simp only [List.count_nil]
      omega
    exact le_trans hc (count_le_count_map _ _ _)
  · show (((ts.foldl (fun acc t => acc ++ memTypeIds s t) []).filter
        (fun i => p (JsArg.str i))).map (memEntry s))
      = ((ts.foldl (fun acc t => acc ++ memTypeIds s t) []).map (memEntry s)).filter
        (fun r => p (match r with | some e => JsArg.ent e | none => JsArg.undef))
    rw [List.filter_map]
    apply congrArg
    apply List.filter_congr
    intro i hi
    simp only [Function.comp]
    exact hagree i

/-- C9 witness: an id indexed under two types and a filter that cannot
tell ids from entries. -/
theorem C9_witness :
    "p1" ∈ memTypeIds
      (⟨[("p1", ⟨"p1", "press", none⟩)], [], [("press", ["p1"]), ("page", ["p1"])]⟩ : MemCache)
      "press" ∧
    "p1" ∈ memTypeIds
      (⟨[("p1", ⟨"p1", "press", none⟩)], [], [("press", ["p1"]), ("page", ["p1"])]⟩ : MemCache)
      "page" ∧
    2 ≤ (memEntriesOfType
      (⟨[("p1", ⟨"p1", "press", none⟩)], [], [("press", ["p1"]), ("page", ["p1"])]⟩ : MemCache)
      ["press", "page"] none).count (memEntry
      (⟨[("p1", ⟨"p1", "press", none⟩)], [], [("press", ["p1"]), ("page", ["p1"])]⟩ : MemCache)
      "p1") := by
  have H := C9_entriesOfType_amended
    (⟨[("p1", ⟨"p1", "press", none⟩)], [], [("press", ["p1"]), ("page", ["p1"])]⟩ : MemCache)
    [] (fun _ => true) "press" "page" "p1" redisInit (by decide) (by decide) (fun i => rfl)
  exact ⟨by decide, by decide, H.1⟩

/-- C4 witness: the scenario entry stored once with a single route, on
both backends. -/
theorem C4_witness :
    getKey (memUpdateEntries [⟨"A1", "page", some (some "home")⟩] memInit).entries "A1"
      = some (⟨"A1", "page", some (some "home")⟩ : Entry) ∧
    (∀ p ∈ (memUpdateEntries [⟨"A1", "page", some (some "home")⟩] memInit).routes,
      p.2.2 = "A1" → p.1 = "home") ∧
    getKey (redisUpdate (⟨"A1", "page", some (some "home")⟩ : Entry) redisInit).kv "A1"
      = some (⟨"A1", "page", some (some "home")⟩ : Entry) ∧
    (memDestroy (memUpdateEntries [⟨"A1", "page", some (some "home")⟩] memInit) "A1").isSome = true ∧
    memEntry ((memDestroy (memUpdateEntries [⟨"A1", "page", some (some "home")⟩] memInit) "A1").getD
      (memUpdateEntries [⟨"A1", "page", some (some "home")⟩] memInit)) "A1" = none ∧
    "A1" ∉ memTypeIds ((memDestroy (memUpdateEntries [⟨"A1", "page", some (some "home")⟩] memInit) "A1").getD
      (memUpdateEntries [⟨"A1", "page", some (some "home")⟩] memInit)) "page" ∧
    redisEntry (redisDestroy (redisUpdate (⟨"A1", "page", some (some "home")⟩ : Entry) redisInit) "A1") "A1"
      = RedisEntryResult.emptyObj ∧
    "A1" ∉ redisTypeIds (redisDestroy (redisUpdate (⟨"A1", "page", some (some "home")⟩ : Entry) redisInit) "A1") "page" := by
  have H := C4_destroy_amended (⟨"A1", "page", some (some "home")⟩ : Entry)
    (memUpdateEntries [⟨"A1", "page", some (some "home")⟩] memInit)
    (redisUpdate (⟨"A1", "page", some (some "home")⟩ : Entry) redisInit)
    "home" (by decide) (by decide) (by decide) (by decide) (by decide)
  exact ⟨by decide, by decide, by decide, H.1, H.2.1, H.2.2.1, H.2.2.2.2.1, H.2.2.2.2.2.1⟩

/-- C3 counterexample: a single in-memory `update` is one of the public
operations, and after it the Entry Store holds `A1` with content type
`page` while the Type Index does not hold `A1` under `page` — the
claimed two-way correspondence fails. -/
theorem C3_counterexample :
    getKey (memUpdate (⟨"A1", "page", some (some "home")⟩ : Entry) memInit).entries "A1"
      = some (⟨"A1", "page", some (some "home")⟩ : Entry) ∧
    "A1" ∉ memTypeIds (memUpdate (⟨"A1", "page", some (some "home")⟩ : Entry) memInit) "page" := by
  decide

/-- C3 (amended): starting from an empty cache, after any sequence of
`updateEntries` and `destroy` on the in-memory backend, and of
`update`, `updateEntries` and `destroy` on the redis backend, in which
every supplied entry keeps the content type fixed for its id, an id
appears in the Type Index under type `t` iff the Entry Store currently
holds an entry with that id whose content type is `t`.  A bare
in-memory `update` is excluded (it does not maintain the index), and a
type-changing update would leave a stale membership under the old
type. -/
theorem C3_type_index_invariant_amended (τ : String → String)
    (ops : List MemOp) (rops : List RedisOp)
    (hok : ∀ op ∈ ops, memOpTyped τ op) (hrok : ∀ op ∈ rops, redisOpTyped τ op) :
    (∀ id t, id ∈ memTypeIds (memExec ops) t
      ↔ (getKey (memExec ops).entries id).map Entry.ctype = some t) ∧
    (∀ id t, id ∈ redisTypeIds (redisExec rops) t
      ↔ (getKey (redisExec rops).kv id).map Entry.ctype = some t) := by
  constructor
  · intro id t
    exact memInv_iff (memInv_fold_ops ops memInit (memInv_init τ) hok) id t
  · intro id t
    exact redisInv_iff (redisInv_fold_ops rops redisInit (redisInv_init τ) hrok) id t

/-- C3 witness: a one-batch, one-entry sequence on each backend. -/
theorem C3_witness :
    memOpTyped (fun _ => "page") (MemOp.updateEntries [⟨"A1", "page", some (some "home")⟩]) ∧
    redisOpTyped (fun _ => "page") (RedisOp.update ⟨"A1", "page", some (some "home")⟩) ∧
    ("A1" ∈ memTypeIds (memExec [MemOp.updateEntries [⟨"A1", "page", some (some "home")⟩]]) "page"
      ↔ (getKey (memExec [MemOp.updateEntries [⟨"A1", "page", some (some "home")⟩]]).entries
          "A1").map Entry.ctype = some "page") ∧
    ("A1" ∈ redisTypeIds (redisExec [RedisOp.update ⟨"A1", "page", some (some "home")⟩]) "page"
      ↔ (getKey (redisExec [RedisOp.update ⟨"A1", "page", some (some "home")⟩]).kv
          "A1").map Entry.ctype = some "page") := by
  refine ⟨by decide, by decide, ?_, ?_⟩
  · exact (C3_type_index_invariant_amended (fun _ => "page")
      [MemOp.updateEntries [⟨"A1", "page", some (some "home")⟩]]
      [RedisOp.update ⟨"A1", "page", some (some "home")⟩]
      (by decide) (by decide)).1 "A1" "page"
  · exact (C3_type_index_invariant_amended (fun _ => "page")
      [MemOp.updateEntries [⟨"A1", "page", some (some "home")⟩]]
      [RedisOp.update ⟨"A1", "page", some (some "home")⟩]
      (by decide) (by decide)).2 "A1" "page"

end Contentful
